import Mathlib

/-!
Verification of the PDQ WebAssembly binding layer (`src/cpp/pdq_wasm.cpp`).

Modelling conventions:
* A pointer argument is `Option (Nat → Nat)`: `none` is the null pointer and
  `some m` is a non-null pointer whose pointee memory is the function `m`
  from byte offset to byte value.  Writes through a pointer are modelled
  with `Function.update`; a call returns the (possibly updated) memories of
  its output pointers together with its `int` return value.
* C `char` / `uint8_t` values are `Nat` byte values; character literals
  appear by ASCII code (48 is the digit zero, 97 is lowercase a, ...).
* C `int` values are `Int`.
* Loops are modelled by structural recursion on the remaining trip count.
-/

namespace PdqWasm

/-- Decoding of one hex character, from `pdq_hex_to_hash` (pdq_wasm.cpp
lines 255-261): digits `'0'..'9'` (codes 48-57), then lowercase
`'a'..'f'` (codes 97-102), then uppercase `'A'..'F'` (codes 65-70);
every other character code yields `-1`. -/
def hexCharVal (c : Nat) : Int :=
  if 48 ≤ c ∧ c ≤ 57 then (c : Int) - 48
  else if 97 ≤ c ∧ c ≤ 102 then (c : Int) - 97 + 10
  else if 65 ≤ c ∧ c ≤ 70 then (c : Int) - 65 + 10
  else -1

/-- The byte `(highVal << 4) | lowVal` assembled by iteration `i` of the
loop in `pdq_hex_to_hash` (line 267), reading characters `i*2` and
`i*2+1` of the input. -/
def hexPairByte (s : Nat → Nat) (i : Nat) : Nat :=
  ((hexCharVal (s (i * 2))).toNat <<< 4) ||| (hexCharVal (s (i * 2 + 1))).toNat

/-- The loop of `pdq_hex_to_hash` (lines 250-268): `i` is the current
iteration index, the second argument the number of remaining iterations
(32 at the top-level call), `out` the current contents of the output
buffer.  Each iteration decodes the character pair at positions
`i*2, i*2+1`; on the first invalid character it returns `-1` with the
output buffer as written so far, otherwise it stores the decoded byte at
offset `i` and continues, returning `0` after the last iteration. -/
def hexToHashLoop (s : Nat → Nat) : Nat → Nat → (Nat → Nat) → Int × (Nat → Nat)
  | _, 0, out => (0, out)
  | i, n + 1, out =>
    if hexCharVal (s (i * 2)) < 0 ∨ hexCharVal (s (i * 2 + 1)) < 0 then (-1, out)
    else hexToHashLoop s (i + 1) n (Function.update out i (hexPairByte s i))

/-- `pdq_hex_to_hash` (pdq_wasm.cpp lines 245-271): returns `-1` if either
pointer is null (leaving the output memory untouched), otherwise runs the
32-iteration decoding loop over the first 64 characters of `hexStr`.
The second component is the memory of the output buffer after the call. -/
def pdq_hex_to_hash (hexStr : Option (Nat → Nat)) (hashOut : Option (Nat → Nat)) :
    Int × Option (Nat → Nat) :=
  match hexStr, hashOut with
  | some s, some out => ((hexToHashLoop s 0 32 out).1, some (hexToHashLoop s 0 32 out).2)
  | _, _ => (-1, hashOut)

/-- The lookup table `"0123456789abcdef"` of `pdq_hash_to_hex`
(line 229), as ASCII codes. -/
def hexDigitChar (v : Nat) : Nat :=
  [48, 49, 50, 51, 52, 53, 54, 55, 56, 57, 97, 98, 99, 100, 101, 102].getD v 0

/-- The loop of `pdq_hash_to_hex` (lines 230-233) after `n` iterations:
iteration `i` writes `hexChars[(b[i] >> 4) & 0xF]` at offset `i*2` and
`hexChars[b[i] & 0xF]` at offset `i*2+1` of the output buffer. -/
def toHexLoop (b : Nat → Nat) : Nat → (Nat → Nat) → (Nat → Nat)
  | 0, out => out
  | n + 1, out =>
    Function.update
      (Function.update (toHexLoop b n out) (n * 2) (hexDigitChar ((b n >>> 4) &&& 15)))
      (n * 2 + 1) (hexDigitChar (b n &&& 15))

/-- `pdq_hash_to_hex` (pdq_wasm.cpp lines 224-235): if either pointer is
null it returns without writing; otherwise it runs the 32-iteration loop
and then writes the NUL terminator at offset 64.  The result is the memory
of the output buffer after the call. -/
def pdq_hash_to_hex (hashBytes : Option (Nat → Nat)) (hexOut : Option (Nat → Nat)) :
    Option (Nat → Nat) :=
  match hashBytes, hexOut with
  | some b, some out => some (Function.update (toHexLoop b 32 out) 64 0)
  | _, _ => hexOut

/-- The word-to-byte conversion loop shared by `pdq_hash_from_rgb`
(lines 89-92) and `pdq_hash_from_gray` (lines 171-174) after `n`
iterations: iteration `i` writes `(w[i] >> 8) & 0xFF` at offset `i*2`
and `w[i] & 0xFF` at offset `i*2+1`. -/
def hashBytesLoop (w : Nat → Nat) : Nat → (Nat → Nat) → (Nat → Nat)
  | 0, out => out
  | n + 1, out =>
    Function.update
      (Function.update (hashBytesLoop w n out) (n * 2) ((w n >>> 8) &&& 255))
      (n * 2 + 1) (w n &&& 255)

/-- The full 16-word conversion of a `Hash256` into the 32-byte output
buffer (lines 89-92 / 171-174). -/
def writeHashBytes (w : Nat → Nat) (out : Nat → Nat) : Nat → Nat :=
  hashBytesLoop w 16 out

/-- `pdq_hash_from_rgb` (pdq_wasm.cpp lines 27-108).  The body of the
`try` block up to the output writes calls only the PDQ library
(`fillFloatLumaFromRGB`, `pdqHash256FromFloatLuma`), an external
dependency operating on floats; its outcome is abstracted by the oracle
argument `pdqComputation`: `none` models an exception thrown inside the
`try` block (all possible throw points precede the output writes), and
`some (w, q)` models a successful computation of hash words `w` and
quality `q`.  The function checks the pointers for null (`-1`), then the
dimensions (`-2`), maps an exception to `-3`, and only in the remaining
case writes the 32 hash bytes and the quality and returns `0`.  The
result carries the final memories of `hashOut` and `qualityOut`. -/
def pdq_hash_from_rgb (rgbBuffer : Option (Nat → Nat)) (width height : Int)
    (hashOut : Option (Nat → Nat)) (qualityOut : Option Int)
    (pdqComputation : Option ((Nat → Nat) × Int)) :
    Int × Option (Nat → Nat) × Option Int :=
  match rgbBuffer, hashOut, qualityOut with
  | some _, some hmem, some qmem =>
    if width ≤ 0 ∨ height ≤ 0 then (-2, some hmem, some qmem)
    else
      match pdqComputation with
      | none => (-3, some hmem, some qmem)
      | some (w, quality) => (0, some (writeHashBytes w hmem), some quality)
  | _, _, _ => (-1, hashOut, qualityOut)

/-- `pdq_hash_from_gray` (pdq_wasm.cpp lines 121-187): identical
control flow to `pdq_hash_from_rgb`; the grayscale luma conversion and
hash computation inside the `try` block are abstracted by the same kind
of oracle argument. -/
def pdq_hash_from_gray (grayBuffer : Option (Nat → Nat)) (width height : Int)
    (hashOut : Option (Nat → Nat)) (qualityOut : Option Int)
    (pdqComputation : Option ((Nat → Nat) × Int)) :
    Int × Option (Nat → Nat) × Option Int :=
  match grayBuffer, hashOut, qualityOut with
  | some _, some hmem, some qmem =>
    if width ≤ 0 ∨ height ≤ 0 then (-2, some hmem, some qmem)
    else
      match pdqComputation with
      | none => (-3, some hmem, some qmem)
      | some (w, quality) => (0, some (writeHashBytes w hmem), some quality)
  | _, _, _ => (-1, hashOut, qualityOut)

/-- Reconstruction of hash word `i` from the byte buffer, from
`pdq_hamming_distance` (lines 207-208):
`(uint16_t(bytes[i*2]) << 8) | bytes[i*2+1]`. -/
def readHashWord (b : Nat → Nat) (i : Nat) : Nat :=
  (b (i * 2) <<< 8) ||| b (i * 2 + 1)

/-- Set-bit count of the low 16 bits of a word. -/
def popCount16 (x : Nat) : Nat :=
  (List.range 16).countP (fun k => x.testBit k)

/-- Modelled from the spec: `Hash256::hammingDistance` lives in the
external PDQ library header `pdq/cpp/common/pdqhamming.h`, not in this
repository's sources; the spec describes it as XOR-ing corresponding
16-bit words and summing set-bit counts across all 16 words. -/
def hash256HammingDistance (w1 w2 : Nat → Nat) : Nat :=
  ((List.range 16).map (fun i => popCount16 ((w1 i) ^^^ (w2 i)))).sum

/-- `pdq_hamming_distance` (pdq_wasm.cpp lines 197-215): `-1` if either
pointer is null, otherwise the words of both buffers are reconstructed
(big-endian byte pairs) and their Hamming distance returned.  Nothing in
the `try` block can throw, so the `catch` branch is unreachable. -/
def pdq_hamming_distance (hash1 hash2 : Option (Nat → Nat)) : Int :=
  match hash1, hash2 with
  | some b1, some b2 =>
    (hash256HammingDistance (fun i => readHashWord b1 i) (fun i => readHashWord b2 i) : Int)
  | _, _ => -1

/-- Bit `j` of the 256-bit value held in a 32-byte buffer: word `j / 16`
holds bits `[16 * (j / 16), 16 * (j / 16) + 16)` (spec section 3). -/
def hashBitOf (b : Nat → Nat) (j : Nat) : Bool :=
  (readHashWord b (j / 16)).testBit (j % 16)

/-- Number of bit positions (out of 256) at which the values held in two
32-byte buffers differ. -/
def bitDiffCount (b1 b2 : Nat → Nat) : Nat :=
  (List.range 256).countP (fun j => hashBitOf b1 j != hashBitOf b2 j)

/-- Validity of the character pair read by iteration `k` of the
`pdq_hex_to_hash` loop: both characters decode to a non-negative value. -/
def pairValid (s : Nat → Nat) (k : Nat) : Prop :=
  0 ≤ hexCharVal (s (k * 2)) ∧ 0 ≤ hexCharVal (s (k * 2 + 1))

/-- The memory `s` holds the NUL-terminated C string whose content bytes
are `cs`: the bytes of `cs` (none of which is NUL) at offsets
`0 .. cs.length - 1`, then a NUL byte.  Memory past the terminator is
unconstrained. -/
def isCStr (s : Nat → Nat) (cs : List Nat) : Prop :=
  (∀ i, i < cs.length → s i = cs.getD i 0) ∧ s cs.length = 0 ∧ ∀ c ∈ cs, c ≠ 0

/-- Character codes of hex digits: `'0'..'9'`, lowercase `'a'..'f'`,
uppercase `'A'..'F'`. -/
def isHexAscii (c : Nat) : Prop :=
  (48 ≤ c ∧ c ≤ 57) ∨ (97 ≤ c ∧ c ≤ 102) ∨ (65 ≤ c ∧ c ≤ 70)

/-- Character codes of lowercase hex digits, the image of the lookup
table of `pdq_hash_to_hex`. -/
def isLowerHexDigitChar (c : Nat) : Prop :=
  c ∈ [48, 49, 50, 51, 52, 53, 54, 55, 56, 57, 97, 98, 99, 100, 101, 102]

/-- All-zero memory, used as an initial output buffer in concrete
instantiations. -/
def zeroMem : Nat → Nat := fun _ => 0

/-- Memory holding 255 at every offset, used to make overwrites of an
output buffer observable. -/
def mem255 : Nat → Nat := fun _ => 255

/-- Memory of the C string `"00z"`: two valid hex characters followed by
an invalid one. -/
def s00zMem : Nat → Nat := fun i => if i < 2 then 48 else if i = 2 then 122 else 0

/-- Memory of a C string of 65 `'0'` characters. -/
def s65Mem : Nat → Nat := fun i => if i < 65 then 48 else 0

/-- Memory of a C string of 64 `'0'` characters. -/
def s64Mem : Nat → Nat := fun i => if i < 64 then 48 else 0

/-- Hash-byte memory holding byte value `i` at offset `i`. -/
def idMem : Nat → Nat := fun i => i

/-- Classification of the return value of `pdq_hash_from_rgb` /
`pdq_hash_from_gray`: the distinct sentinels `-1` (null pointer), `-2`
(non-positive dimension), `-3` (internal failure) and `0` (success) hold
exactly in the four mutually exclusive situations. -/
def sentinelSpec (ret : Int) (buf : Option (Nat → Nat)) (width height : Int)
    (hashOut : Option (Nat → Nat)) (qualityOut : Option Int)
    (comp : Option ((Nat → Nat) × Int)) : Prop :=
  (ret = -1 ↔ buf = none ∨ hashOut = none ∨ qualityOut = none) ∧
  (ret = -2 ↔ (buf ≠ none ∧ hashOut ≠ none ∧ qualityOut ≠ none) ∧
    (width ≤ 0 ∨ height ≤ 0)) ∧
  (ret = -3 ↔ (buf ≠ none ∧ hashOut ≠ none ∧ qualityOut ≠ none) ∧
    0 < width ∧ 0 < height ∧ comp = none) ∧
  (ret = 0 ↔ (buf ≠ none ∧ hashOut ≠ none ∧ qualityOut ≠ none) ∧
    0 < width ∧ 0 < height ∧ comp ≠ none)

instance (c : Nat) : Decidable (isLowerHexDigitChar c) := by
  unfold isLowerHexDigitChar; infer_instance

instance (c : Nat) : Decidable (isHexAscii c) := by
  unfold isHexAscii; infer_instance

instance (s : Nat → Nat) (k : Nat) : Decidable (pairValid s k) := by
  unfold pairValid; infer_instance

instance (s : Nat → Nat) (cs : List Nat) : Decidable (isCStr s cs) := by
  unfold isCStr; infer_instance

/-! Arithmetic readings of the bit manipulations used by the code. -/

theorem and255_eq_mod (n : Nat) : n &&& 255 = n % 256 := by
  have := Nat.and_pow_two_sub_one_eq_mod n 8
  norm_num at this
  exact this

theorem shiftRight8_eq_div (n : Nat) : n >>> 8 = n / 256 := by
  have := Nat.shiftRight_eq_div_pow n 8
  norm_num at this
  exact this

theorem and15_eq_mod (n : Nat) : n &&& 15 = n % 16 := by
  have := Nat.and_pow_two_sub_one_eq_mod n 4
  norm_num at this
  exact this

theorem shiftRight4_eq_div (n : Nat) : n >>> 4 = n / 16 := by
  have := Nat.shiftRight_eq_div_pow n 4
  norm_num at this
  exact this

set_option maxRecDepth 10000 in
theorem nibbles_recompose : ∀ x, x < 256 →
    ((((x >>> 4) &&& 15) <<< 4) ||| (x &&& 15)) = x := by decide

set_option maxRecDepth 2000 in
theorem hexCharVal_hexDigitChar : ∀ v, v < 16 → hexCharVal (hexDigitChar v) = (v : Int) := by
  decide

theorem hexDigitChar_mem : ∀ v, v < 16 → isLowerHexDigitChar (hexDigitChar v) := by decide

/-! Pointwise characterization of the write loops. -/

theorem toHexLoop_apply (b out : Nat → Nat) :
    ∀ n j, toHexLoop b n out j =
      if j < n * 2 then
        (if j % 2 = 0 then hexDigitChar ((b (j / 2) >>> 4) &&& 15)
         else hexDigitChar (b (j / 2) &&& 15))
      else out j := by
  intro n
  induction n with
  | zero => intro j; simp [toHexLoop]
  | succ n ih =>
    intro j
    simp only [toHexLoop, Function.update_apply]
    by_cases h1 : j = n * 2 + 1
    · subst h1
      have e1 : (n * 2 + 1) % 2 = 1 := by omega
      have e2 : (n * 2 + 1) / 2 = n := by omega
      simp [e1, e2, show n * 2 + 1 < (n + 1) * 2 by omega]
    · by_cases h2 : j = n * 2
      · subst h2
        have e1 : (n * 2) % 2 = 0 := by omega
        have e2 : (n * 2) / 2 = n := by omega
        simp [e1, e2, show n * 2 < (n + 1) * 2 by omega, h1]
      · have e3 : (j < n * 2) ↔ (j < (n + 1) * 2) := by omega
        simp only [h1, h2, if_false, ih j, e3]

theorem hashBytesLoop_apply (w out : Nat → Nat) :
    ∀ n j, hashBytesLoop w n out j =
      if j < n * 2 then
        (if j % 2 = 0 then (w (j / 2) >>> 8) &&& 255 else w (j / 2) &&& 255)
      else out j := by
  intro n
  induction n with
  | zero => intro j; simp [hashBytesLoop]
  | succ n ih =>
    intro j
    simp only [hashBytesLoop, Function.update_apply]
    by_cases h1 : j = n * 2 + 1
    · subst h1
      have e1 : (n * 2 + 1) % 2 = 1 := by omega
      have e2 : (n * 2 + 1) / 2 = n := by omega
      simp [e1, e2, show n * 2 + 1 < (n + 1) * 2 by omega]
    · by_cases h2 : j = n * 2
      · subst h2
        have e1 : (n * 2) % 2 = 0 := by omega
        have e2 : (n * 2) / 2 = n := by omega
        simp [e1, e2, show n * 2 < (n + 1) * 2 by omega, h1]
      · have e3 : (j < n * 2) ↔ (j < (n + 1) * 2) := by omega
        simp only [h1, h2, if_false, ih j, e3]

/-! Behaviour of the decoding loop of `pdq_hex_to_hash`. -/

theorem hexToHashLoop_fst_eq_zero (s : Nat → Nat) :
    ∀ n i out, (hexToHashLoop s i n out).1 = 0 ↔ ∀ k, k < n → pairValid s (i + k) := by
  intro n
  induction n with
  | zero => intro i out; simp [hexToHashLoop]
  | succ n ih =>
    intro i out
    simp only [hexToHashLoop]
    by_cases h : hexCharVal (s (i * 2)) < 0 ∨ hexCharVal (s (i * 2 + 1)) < 0
    · rw [if_pos h]
      simp only [show ¬((-1 : Int) = 0) by norm_num, false_iff]
      intro hall
      have h0 := hall 0 (by omega)
      rw [Nat.add_zero] at h0
      rcases h0 with ⟨h1, h2⟩
      rcases h with h | h <;> omega
    · rw [if_neg h]
      rw [ih (i + 1)]
      push_neg at h
      constructor
      · intro hall k hk
        rcases Nat.eq_zero_or_pos k with rfl | hpos
        · exact ⟨h.1, h.2⟩
        · have e : i + 1 + (k - 1) = i + k := by omega
          have := hall (k - 1) (by omega)
          rwa [e] at this
      · intro hall k hk
        have e : i + (k + 1) = i + 1 + k := by omega
        have := hall (k + 1) (by omega)
        rwa [e] at this

theorem hexToHashLoop_fst_cases (s : Nat → Nat) :
    ∀ n i out, (hexToHashLoop s i n out).1 = 0 ∨ (hexToHashLoop s i n out).1 = -1 := by
  intro n
  induction n with
  | zero => intro i out; left; rfl
  | succ n ih =>
    intro i out
    simp only [hexToHashLoop]
    by_cases h : hexCharVal (s (i * 2)) < 0 ∨ hexCharVal (s (i * 2 + 1)) < 0
    · rw [if_pos h]; right; rfl
    · rw [if_neg h]; exact ih (i + 1) _

theorem hexToHashLoop_snd_success (s : Nat → Nat) :
    ∀ n i out, (∀ k, k < n → pairValid s (i + k)) →
      ∀ j, (hexToHashLoop s i n out).2 j =
        if i ≤ j ∧ j < i + n then hexPairByte s j else out j := by
  intro n
  induction n with
  | zero =>
    intro i out _ j
    rw [hexToHashLoop, if_neg (by omega)]
  | succ n ih =>
    intro i out hall j
    have h0 := hall 0 (by omega)
    rw [Nat.add_zero] at h0
    rw [hexToHashLoop, if_neg (by rcases h0 with ⟨h1, h2⟩; push_neg; omega)]
    have hall' : ∀ k, k < n → pairValid s (i + 1 + k) := by
      intro k hk
      have e : i + 1 + k = i + (k + 1) := by omega
      rw [e]
      exact hall (k + 1) (by omega)
    rw [ih (i + 1) _ hall' j]
    by_cases hj : j = i
    · subst hj
      rw [if_neg (by omega), if_pos (by omega), Function.update_apply, if_pos rfl]
    · rw [Function.update_apply, if_neg hj]
      have e : (i + 1 ≤ j ∧ j < i + 1 + n) ↔ (i ≤ j ∧ j < i + (n + 1)) := by omega
      simp only [e]

theorem hexToHashLoop_fail (s : Nat → Nat) :
    ∀ n i out k, k < n → ¬ pairValid s (i + k) → (∀ m, m < k → pairValid s (i + m)) →
      (hexToHashLoop s i n out).1 = -1 ∧
      ∀ j, (hexToHashLoop s i n out).2 j =
        if i ≤ j ∧ j < i + k then hexPairByte s j else out j := by
  intro n
  induction n with
  | zero => intro i out k hk; omega
  | succ n ih =>
    intro i out k hk hbad hgood
    rcases Nat.eq_zero_or_pos k with rfl | hpos
    · rw [Nat.add_zero] at hbad
      rw [hexToHashLoop, if_pos (by unfold pairValid at hbad; push_neg at hbad; omega)]
      exact ⟨rfl, fun j => by rw [if_neg (by omega)]⟩
    · have h0 := hgood 0 (by omega)
      rw [Nat.add_zero] at h0
      rw [hexToHashLoop, if_neg (by rcases h0 with ⟨h1, h2⟩; push_neg; omega)]
      have hbad' : ¬ pairValid s (i + 1 + (k - 1)) := by
        have e : i + 1 + (k - 1) = i + k := by omega
        rwa [e]
      have hgood' : ∀ m, m < k - 1 → pairValid s (i + 1 + m) := by
        intro m hm
        have e : i + 1 + m = i + (m + 1) := by omega
        rw [e]
        exact hgood (m + 1) (by omega)
      obtain ⟨hfst, hsnd⟩ := ih (i + 1) (Function.update out i (hexPairByte s i)) (k - 1)
        (by omega) hbad' hgood'
      refine ⟨hfst, fun j => ?_⟩
      rw [hsnd j]
      by_cases hj : j = i
      · subst hj
        rw [if_neg (by omega), if_pos (by omega), Function.update_apply, if_pos rfl]
      · rw [Function.update_apply, if_neg hj]
        have e : (i + 1 ≤ j ∧ j < i + 1 + (k - 1)) ↔ (i ≤ j ∧ j < i + k) := by omega
        simp only [e]

/-! Bridging the loop's pairwise character validity with C strings. -/

theorem hexCharVal_nonneg_iff (c : Nat) : 0 ≤ hexCharVal c ↔ isHexAscii c := by
  unfold hexCharVal isHexAscii
  split_ifs <;> omega

theorem pairValid_all_iff (s : Nat → Nat) :
    (∀ k, k < 32 → pairValid s k) ↔ ∀ i, i < 64 → 0 ≤ hexCharVal (s i) := by
  constructor
  · intro h i hi
    have hcase : i = (i / 2) * 2 ∨ i = (i / 2) * 2 + 1 := by omega
    have hp := h (i / 2) (by omega)
    rcases hcase with e | e <;> rw [e]
    · exact hp.1
    · exact hp.2
  · intro h k hk
    exact ⟨h (k * 2) (by omega), h (k * 2 + 1) (by omega)⟩

theorem cstr_first64_iff (s : Nat → Nat) (cs : List Nat) (h : isCStr s cs) :
    (∀ i, i < 64 → 0 ≤ hexCharVal (s i)) ↔
      (64 ≤ cs.length ∧ ∀ i, i < 64 → isHexAscii (cs.getD i 0)) := by
  obtain ⟨hread, hnul, -⟩ := h
  by_cases hlen : 64 ≤ cs.length
  · simp only [hlen, true_and]
    constructor
    · intro hall i hi
      rw [← hexCharVal_nonneg_iff, ← hread i (by omega)]
      exact hall i hi
    · intro hall i hi
      rw [hread i (by omega), hexCharVal_nonneg_iff]
      exact hall i hi
  · simp only [hlen, false_and, iff_false]
    intro hall
    have := hall cs.length (by omega)
    rw [hnul] at this
    have hneg : hexCharVal 0 = -1 := by decide
    omega

/-! Hamming-distance lemmas. -/

theorem bne_eq_xor (a b : Bool) : (a != b) = (a ^^ b) := by
  cases a <;> cases b <;> rfl

theorem countP_range_chunks (f : Nat → Bool) :
    ∀ n, (List.range (n * 16)).countP f =
      ((List.range n).map (fun i => (List.range 16).countP (fun k => f (i * 16 + k)))).sum := by
  intro n
  induction n with
  | zero => rfl
  | succ n ih =>
    have e : (n + 1) * 16 = n * 16 + 16 := by ring
    rw [e, List.range_add, List.countP_append, List.countP_map, ih,
      show List.range (n + 1) = List.range n ++ [n] from List.range_succ n,
      List.map_append, List.sum_append]
    rfl

theorem hashBitOf_chunk (b : Nat → Nat) (i k : Nat) (hk : k < 16) :
    hashBitOf b (i * 16 + k) = (readHashWord b i).testBit k := by
  unfold hashBitOf
  have e1 : (i * 16 + k) / 16 = i := by omega
  have e2 : (i * 16 + k) % 16 = k := by omega
  rw [e1, e2]

theorem hamming_eq_bitDiffCount (b1 b2 : Nat → Nat) :
    hash256HammingDistance (fun i => readHashWord b1 i) (fun i => readHashWord b2 i) =
      bitDiffCount b1 b2 := by
  unfold bitDiffCount hash256HammingDistance
  have e256 : (256 : Nat) = 16 * 16 := by norm_num
  rw [e256, countP_range_chunks]
  congr 1
  apply List.map_congr_left
  intro i _
  unfold popCount16
  apply List.countP_congr
  intro k hk
  have hk16 : k < 16 := List.mem_range.mp hk
  rw [hashBitOf_chunk b1 i k hk16, hashBitOf_chunk b2 i k hk16, bne_eq_xor,
    ← Nat.testBit_xor]

theorem bitDiffCount_le (b1 b2 : Nat → Nat) : bitDiffCount b1 b2 ≤ 256 := by
  calc bitDiffCount b1 b2 ≤ (List.range 256).length := List.countP_le_length _
  _ = 256 := List.length_range 256

theorem countP_subadd (p q r : Nat → Bool) (l : List Nat)
    (h : ∀ a ∈ l, p a = true → q a = true ∨ r a = true) :
    l.countP p ≤ l.countP q + l.countP r := by
  induction l with
  | nil => simp
  | cons a l ih =>
    rw [List.countP_cons, List.countP_cons, List.countP_cons]
    have ht := ih (fun x hx hpx => h x (List.mem_cons_of_mem a hx) hpx)
    have ha := h a (List.mem_cons_self a l)
    by_cases hp : p a = true
    · rcases ha hp with hq | hr
      · rw [if_pos hp, if_pos hq]
        split_ifs <;> omega
      · rw [if_pos hp, if_pos hr]
        split_ifs <;> omega
    · rw [if_neg hp]
      split_ifs <;> omega

theorem bitDiffCount_triangle (b1 b2 b3 : Nat → Nat) :
    bitDiffCount b1 b3 ≤ bitDiffCount b1 b2 + bitDiffCount b2 b3 := by
  unfold bitDiffCount
  apply countP_subadd
  intro j _ h13
  by_cases h12 : hashBitOf b1 j = hashBitOf b2 j
  · right
    rw [← h12]
    exact h13
  · left
    simp only [bne_iff_ne, ne_eq]
    exact h12

theorem bne_comm (a b : Bool) : (a != b) = (b != a) := by
  cases a <;> cases b <;> rfl

/-! Reduction of the null-pointer matches on non-null arguments. -/

theorem pdq_hamming_distance_some (b1 b2 : Nat → Nat) :
    pdq_hamming_distance (some b1) (some b2) =
      (hash256HammingDistance (fun i => readHashWord b1 i)
        (fun i => readHashWord b2 i) : Int) := rfl

theorem pdq_hex_to_hash_some (s out : Nat → Nat) :
    pdq_hex_to_hash (some s) (some out) =
      ((hexToHashLoop s 0 32 out).1, some (hexToHashLoop s 0 32 out).2) := rfl

theorem pdq_hash_to_hex_some (b out : Nat → Nat) :
    pdq_hash_to_hex (some b) (some out) =
      some (Function.update (toHexLoop b 32 out) 64 0) := rfl

/-- Claim C7: for every pair of non-null 32-byte hashes,
`pdq_hamming_distance` returns the number of bit positions at which the
two 256-bit values differ — computed by XOR-ing corresponding 16-bit
words and summing set-bit counts over all 16 words — and the result is an
integer in `[0, 256]`.  (Proved for arbitrary buffer memories, which
covers all 32-byte hashes.) -/
theorem hamming_distance_correct (b1 b2 : Nat → Nat) :
    pdq_hamming_distance (some b1) (some b2) = (bitDiffCount b1 b2 : Int) ∧
    0 ≤ pdq_hamming_distance (some b1) (some b2) ∧
    pdq_hamming_distance (some b1) (some b2) ≤ 256 := by
  have he : pdq_hamming_distance (some b1) (some b2) = (bitDiffCount b1 b2 : Int) := by
    rw [pdq_hamming_distance_some, hamming_eq_bitDiffCount]
  have hle := bitDiffCount_le b1 b2
  refine ⟨he, ?_, ?_⟩ <;> rw [he] <;> omega

/-- Claim C8: `pdq_hamming_distance` is symmetric in its two hash
arguments. -/
theorem hamming_distance_symm (b1 b2 : Nat → Nat) :
    pdq_hamming_distance (some b1) (some b2) = pdq_hamming_distance (some b2) (some b1) := by
  rw [pdq_hamming_distance_some, pdq_hamming_distance_some,
    hamming_eq_bitDiffCount, hamming_eq_bitDiffCount]
  congr 1
  unfold bitDiffCount
  apply List.countP_congr
  intro j _
  rw [bne_comm]

/-- Claim C9: `pdq_hamming_distance` satisfies the triangle inequality
over non-null 32-byte hashes. -/
theorem hamming_distance_triangle (b1 b2 b3 : Nat → Nat) :
    pdq_hamming_distance (some b1) (some b3) ≤
      pdq_hamming_distance (some b1) (some b2) +
        pdq_hamming_distance (some b2) (some b3) := by
  rw [pdq_hamming_distance_some, pdq_hamming_distance_some, pdq_hamming_distance_some,
    hamming_eq_bitDiffCount, hamming_eq_bitDiffCount, hamming_eq_bitDiffCount]
  have := bitDiffCount_triangle b1 b2 b3
  omega

/-! Case reductions for the image-hashing entry points. -/

theorem from_gray_eq_from_rgb : pdq_hash_from_gray = pdq_hash_from_rgb := rfl

theorem from_rgb_none_buf (width height : Int) (ho : Option (Nat → Nat))
    (qo : Option Int) (comp : Option ((Nat → Nat) × Int)) :
    pdq_hash_from_rgb none width height ho qo comp = (-1, ho, qo) := rfl

theorem from_rgb_none_hashOut (r : Nat → Nat) (width height : Int)
    (qo : Option Int) (comp : Option ((Nat → Nat) × Int)) :
    pdq_hash_from_rgb (some r) width height none qo comp = (-1, none, qo) := rfl

theorem from_rgb_none_qualityOut (r : Nat → Nat) (width height : Int)
    (hmem : Nat → Nat) (comp : Option ((Nat → Nat) × Int)) :
    pdq_hash_from_rgb (some r) width height (some hmem) none comp =
      (-1, some hmem, none) := rfl

theorem from_rgb_some (r : Nat → Nat) (width height : Int) (hmem : Nat → Nat)
    (qv : Int) (comp : Option ((Nat → Nat) × Int)) :
    pdq_hash_from_rgb (some r) width height (some hmem) (some qv) comp =
      if width ≤ 0 ∨ height ≤ 0 then (-2, some hmem, some qv)
      else
        match comp with
        | none => (-3, some hmem, some qv)
        | some (w, quality) => (0, some (writeHashBytes w hmem), some quality) := rfl

theorem from_rgb_sentinels (buf : Option (Nat → Nat)) (width height : Int)
    (hashOut : Option (Nat → Nat)) (qualityOut : Option Int)
    (comp : Option ((Nat → Nat) × Int)) :
    sentinelSpec (pdq_hash_from_rgb buf width height hashOut qualityOut comp).1
      buf width height hashOut qualityOut comp := by
  unfold sentinelSpec
  rcases buf with _ | rmem
  · rw [from_rgb_none_buf]
    refine ⟨by simp, ?_, ?_, ?_⟩ <;> constructor <;> intro h
    · exact absurd h (by norm_num)
    · exact absurd rfl h.1.1
    · exact absurd h (by norm_num)
    · exact absurd rfl h.1.1
    · exact absurd h (by norm_num)
    · exact absurd rfl h.1.1
  · rcases hashOut with _ | hmem
    · rw [from_rgb_none_hashOut]
      refine ⟨by simp, ?_, ?_, ?_⟩ <;> constructor <;> intro h
      · exact absurd h (by norm_num)
      · exact absurd rfl h.1.2.1
      · exact absurd h (by norm_num)
      · exact absurd rfl h.1.2.1
      · exact absurd h (by norm_num)
      · exact absurd rfl h.1.2.1
    · rcases qualityOut with _ | qv
      · rw [from_rgb_none_qualityOut]
        refine ⟨by simp, ?_, ?_, ?_⟩ <;> constructor <;> intro h
        · exact absurd h (by norm_num)
        · exact absurd rfl h.1.2.2
        · exact absurd h (by norm_num)
        · exact absurd rfl h.1.2.2
        · exact absurd h (by norm_num)
        · exact absurd rfl h.1.2.2
      · rw [from_rgb_some]
        by_cases hd : width ≤ 0 ∨ height ≤ 0
        · rw [if_pos hd]
          refine ⟨by simp, ?_, ?_, ?_⟩ <;> constructor <;> intro h
          · exact ⟨⟨by simp, by simp, by simp⟩, hd⟩
          · rfl
          · exact absurd h (by norm_num)
          · rcases h with ⟨-, hw, hh, -⟩
            rcases hd with hd | hd <;> omega
          · exact absurd h (by norm_num)
          · rcases h with ⟨-, hw, hh, -⟩
            rcases hd with hd | hd <;> omega
        · rw [if_neg hd]
          push_neg at hd
          rcases comp with _ | ⟨w, q⟩
          · refine ⟨by simp, ?_, ?_, ?_⟩ <;> constructor <;> intro h
            · exact absurd h (by norm_num)
            · rcases h with ⟨-, hwh⟩
              rcases hwh with hwh | hwh <;> omega
            · exact ⟨⟨by simp, by simp, by simp⟩, by omega, by omega, rfl⟩
            · rfl
            · exact absurd h (by norm_num)
            · exact absurd rfl h.2.2.2
          · refine ⟨by simp, ?_, ?_, ?_⟩ <;> constructor <;> intro h
            · exact absurd h (by norm_num)
            · rcases h with ⟨-, hwh⟩
              rcases hwh with hwh | hwh <;> omega
            · exact absurd h (by norm_num)
            · exact absurd h.2.2.2 (by simp)
            · exact ⟨⟨by simp, by simp, by simp⟩, by omega, by omega, by simp⟩
            · rfl

/-- Claim C6: `pdq_hash_from_rgb` and `pdq_hash_from_gray` signal errors
with distinct sentinel values distinguishing the three failure classes —
null/missing input (`-1`), invalid dimensions (`-2`), internal
computation failure (`-3`) — and return `0` exactly on success. -/
theorem hash_error_sentinels (buf : Option (Nat → Nat)) (width height : Int)
    (hashOut : Option (Nat → Nat)) (qualityOut : Option Int)
    (comp : Option ((Nat → Nat) × Int)) :
    sentinelSpec (pdq_hash_from_rgb buf width height hashOut qualityOut comp).1
      buf width height hashOut qualityOut comp ∧
    sentinelSpec (pdq_hash_from_gray buf width height hashOut qualityOut comp).1
      buf width height hashOut qualityOut comp := by
  refine ⟨from_rgb_sentinels .., ?_⟩
  rw [from_gray_eq_from_rgb]
  exact from_rgb_sentinels ..

/-- Claim C5: whenever `pdq_hash_from_rgb` or `pdq_hash_from_gray`
returns an error (non-zero), the caller-supplied `hashOut` and
`qualityOut` buffers are left exactly as they were before the call. -/
theorem hash_error_leaves_outputs (buf : Option (Nat → Nat)) (width height : Int)
    (hashOut : Option (Nat → Nat)) (qualityOut : Option Int)
    (comp : Option ((Nat → Nat) × Int)) :
    ((pdq_hash_from_rgb buf width height hashOut qualityOut comp).1 ≠ 0 →
      (pdq_hash_from_rgb buf width height hashOut qualityOut comp).2.1 = hashOut ∧
      (pdq_hash_from_rgb buf width height hashOut qualityOut comp).2.2 = qualityOut) ∧
    ((pdq_hash_from_gray buf width height hashOut qualityOut comp).1 ≠ 0 →
      (pdq_hash_from_gray buf width height hashOut qualityOut comp).2.1 = hashOut ∧
      (pdq_hash_from_gray buf width height hashOut qualityOut comp).2.2 = qualityOut) := by
  rw [from_gray_eq_from_rgb]
  have main : (pdq_hash_from_rgb buf width height hashOut qualityOut comp).1 ≠ 0 →
      (pdq_hash_from_rgb buf width height hashOut qualityOut comp).2.1 = hashOut ∧
      (pdq_hash_from_rgb buf width height hashOut qualityOut comp).2.2 = qualityOut := by
    rcases buf with _ | rmem
    · rw [from_rgb_none_buf]
      exact fun _ => ⟨rfl, rfl⟩
    · rcases hashOut with _ | hmem
      · rw [from_rgb_none_hashOut]
        exact fun _ => ⟨rfl, rfl⟩
      · rcases qualityOut with _ | qv
        · rw [from_rgb_none_qualityOut]
          exact fun _ => ⟨rfl, rfl⟩
        · rw [from_rgb_some]
          by_cases hd : width ≤ 0 ∨ height ≤ 0
          · rw [if_pos hd]
            exact fun _ => ⟨rfl, rfl⟩
          · rw [if_neg hd]
            rcases comp with _ | ⟨w, q⟩
            · exact fun _ => ⟨rfl, rfl⟩
            · exact fun h => absurd rfl h
  exact ⟨main, main⟩

/-! The decoding loop reads only the first 64 characters. -/

theorem hexToHashLoop_congr (s s' : Nat → Nat) :
    ∀ n i out, (∀ j, j < (i + n) * 2 → s' j = s j) →
      hexToHashLoop s' i n out = hexToHashLoop s i n out := by
  intro n
  induction n with
  | zero => intro i out _; rfl
  | succ n ih =>
    intro i out hagree
    have e1 : s' (i * 2) = s (i * 2) := hagree _ (by omega)
    have e2 : s' (i * 2 + 1) = s (i * 2 + 1) := hagree _ (by omega)
    have e3 : hexPairByte s' i = hexPairByte s i := by
      unfold hexPairByte
      rw [e1, e2]
    simp only [hexToHashLoop, e1, e2, e3]
    split_ifs with hc
    · rfl
    · exact ih (i + 1) _ (fun j hj => hagree j (by omega))

/-- Claim C3: the serialization format contract: hash word `i` is stored
big-endian in the 32-byte output, byte `2i` the high byte and byte `2i+1`
the low byte, for every `i < 16`; and `pdq_hash_to_hex` renders each byte
as two lowercase hex digits, most-significant nibble first, producing a
64-character NUL-terminated string. -/
theorem hash_serialization_format (w out0 b hexInit : Nat → Nat)
    (hw : ∀ i, i < 16 → w i < 65536) (hb : ∀ i, i < 32 → b i < 256) :
    (∀ i, i < 16 → writeHashBytes w out0 (i * 2) = w i / 256 ∧
      writeHashBytes w out0 (i * 2 + 1) = w i % 256) ∧
    ∃ mem, pdq_hash_to_hex (some b) (some hexInit) = some mem ∧
      (∀ i, i < 32 → mem (i * 2) = hexDigitChar (b i / 16) ∧
        mem (i * 2 + 1) = hexDigitChar (b i % 16)) ∧
      (∀ j, j < 64 → isLowerHexDigitChar (mem j)) ∧
      mem 64 = 0 := by
  constructor
  · intro i hi
    unfold writeHashBytes
    rw [hashBytesLoop_apply, hashBytesLoop_apply]
    constructor
    · rw [if_pos (by omega)]
      have e1 : (i * 2) % 2 = 0 := by omega
      have e2 : (i * 2) / 2 = i := by omega
      rw [if_pos e1, e2, shiftRight8_eq_div, and255_eq_mod]
      exact Nat.mod_eq_of_lt (by have := hw i hi; omega)
    · rw [if_pos (by omega)]
      have e1 : (i * 2 + 1) % 2 = 1 := by omega
      have e2 : (i * 2 + 1) / 2 = i := by omega
      rw [if_neg (by omega), e2, and255_eq_mod]
  · refine ⟨_, pdq_hash_to_hex_some b hexInit, ?_, ?_, ?_⟩
    · intro i hi
      constructor
      · rw [Function.update_apply, if_neg (by omega), toHexLoop_apply, if_pos (by omega)]
        have e1 : (i * 2) % 2 = 0 := by omega
        have e2 : (i * 2) / 2 = i := by omega
        rw [if_pos e1, e2, shiftRight4_eq_div, and15_eq_mod]
        congr 1
        exact Nat.mod_eq_of_lt (by have := hb i hi; omega)
      · rw [Function.update_apply, if_neg (by omega), toHexLoop_apply, if_pos (by omega)]
        have e1 : (i * 2 + 1) % 2 = 1 := by omega
        have e2 : (i * 2 + 1) / 2 = i := by omega
        rw [if_neg (by omega), e2, and15_eq_mod]
    · intro j hj
      rw [Function.update_apply, if_neg (by omega), toHexLoop_apply, if_pos (by omega)]
      by_cases hp : j % 2 = 0
      · rw [if_pos hp, shiftRight4_eq_div, and15_eq_mod]
        exact hexDigitChar_mem _ (by omega)
      · rw [if_neg hp, and15_eq_mod]
        exact hexDigitChar_mem _ (by omega)
    · rw [Function.update_apply, if_pos rfl]

/-- Claim C4: round trip: for every 32-byte hash `h`, rendering it with
`pdq_hash_to_hex` and parsing the resulting 64-character string back with
`pdq_hex_to_hash` succeeds and recovers exactly the original 32 bytes. -/
theorem hexToHash_toHex_roundTrip (h hexInit out : Nat → Nat)
    (hh : ∀ i, i < 32 → h i < 256) :
    ∃ mem, pdq_hash_to_hex (some h) (some hexInit) = some mem ∧
      (pdq_hex_to_hash (some mem) (some out)).1 = 0 ∧
      ∃ res, (pdq_hex_to_hash (some mem) (some out)).2 = some res ∧
        ∀ i, i < 32 → res i = h i := by
  refine ⟨Function.update (toHexLoop h 32 hexInit) 64 0,
    pdq_hash_to_hex_some h hexInit, ?_⟩
  have hmemval : ∀ i, i < 32 →
      Function.update (toHexLoop h 32 hexInit) 64 0 (i * 2) =
        hexDigitChar ((h i >>> 4) &&& 15) ∧
      Function.update (toHexLoop h 32 hexInit) 64 0 (i * 2 + 1) =
        hexDigitChar (h i &&& 15) := by
    intro i hi
    constructor
    · rw [Function.update_apply, if_neg (by omega), toHexLoop_apply, if_pos (by omega)]
      have e1 : (i * 2) % 2 = 0 := by omega
      have e2 : (i * 2) / 2 = i := by omega
      rw [if_pos e1, e2]
    · rw [Function.update_apply, if_neg (by omega), toHexLoop_apply, if_pos (by omega)]
      have e1 : (i * 2 + 1) % 2 = 1 := by omega
      have e2 : (i * 2 + 1) / 2 = i := by omega
      rw [if_neg (by omega), e2]
  have hvalid : ∀ k, k < 32 → pairValid (Function.update (toHexLoop h 32 hexInit) 64 0) k := by
    intro k hk
    obtain ⟨e1, e2⟩ := hmemval k hk
    constructor
    · rw [e1, hexCharVal_hexDigitChar _ (by rw [and15_eq_mod]; omega)]
      exact Int.natCast_nonneg _
    · rw [e2, hexCharVal_hexDigitChar _ (by rw [and15_eq_mod]; omega)]
      exact Int.natCast_nonneg _
  constructor
  · rw [pdq_hex_to_hash_some, hexToHashLoop_fst_eq_zero]
    intro k hk
    rw [Nat.zero_add]
    exact hvalid k hk
  · refine ⟨(hexToHashLoop (Function.update (toHexLoop h 32 hexInit) 64 0) 0 32 out).2,
      by rw [pdq_hex_to_hash_some], ?_⟩
    intro i hi
    rw [hexToHashLoop_snd_success _ 32 0 out
      (fun k hk => by rw [Nat.zero_add]; exact hvalid k hk) i]
    rw [if_pos (by omega)]
    obtain ⟨e1, e2⟩ := hmemval i hi
    unfold hexPairByte
    rw [e1, e2, hexCharVal_hexDigitChar _ (by rw [and15_eq_mod]; omega),
      hexCharVal_hexDigitChar _ (by rw [and15_eq_mod]; omega),
      Int.toNat_natCast, Int.toNat_natCast]
    exact nibbles_recompose (h i) (hh i hi)

/-- Claim C10: the result of `pdq_hex_to_hash` depends only on the first
64 characters of the input: whenever the first 64 characters are hex
digits the call succeeds, the 32 output bytes are determined by those
characters alone, bytes past offset 31 of the output buffer are
untouched, and changing the input memory beyond offset 63 does not
change the result at all. -/
theorem hexToHash_first64_determined (s out : Nat → Nat)
    (hvalid : ∀ i, i < 64 → 0 ≤ hexCharVal (s i)) :
    (pdq_hex_to_hash (some s) (some out)).1 = 0 ∧
    (∃ res, (pdq_hex_to_hash (some s) (some out)).2 = some res ∧
      (∀ i, i < 32 → res i = hexPairByte s i) ∧
      (∀ j, 32 ≤ j → res j = out j)) ∧
    ∀ s', (∀ i, i < 64 → s' i = s i) →
      pdq_hex_to_hash (some s') (some out) = pdq_hex_to_hash (some s) (some out) := by
  have hpv : ∀ k, k < 32 → pairValid s (0 + k) := by
    intro k hk
    rw [Nat.zero_add]
    exact ⟨hvalid (k * 2) (by omega), hvalid (k * 2 + 1) (by omega)⟩
  refine ⟨?_, ?_, ?_⟩
  · rw [pdq_hex_to_hash_some, hexToHashLoop_fst_eq_zero]
    exact hpv
  · refine ⟨(hexToHashLoop s 0 32 out).2, by rw [pdq_hex_to_hash_some], ?_, ?_⟩
    · intro i hi
      rw [hexToHashLoop_snd_success s 32 0 out hpv i, if_pos (by omega)]
    · intro j hj
      rw [hexToHashLoop_snd_success s 32 0 out hpv j, if_neg (by omega)]
  · intro s' hagree
    rw [pdq_hex_to_hash_some, pdq_hex_to_hash_some,
      hexToHashLoop_congr s s' 32 0 out (fun j hj => hagree j (by omega))]

/-- Claim C1 is refuted: the input `"00z"` is rejected as malformed
(return `-1`), yet byte 0 of the output buffer, previously 255, has been
overwritten with the decoded value 0 of the valid leading pair. -/
theorem hexToHash_partial_write_cex :
    (pdq_hex_to_hash (some s00zMem) (some mem255)).1 = -1 ∧
    mem255 0 = 255 ∧
    ∃ res, (pdq_hex_to_hash (some s00zMem) (some mem255)).2 = some res ∧
      res 0 = 0 ∧ res 0 ≠ mem255 0 := by
  refine ⟨by decide, rfl, (hexToHashLoop s00zMem 0 32 mem255).2, rfl, by decide, by decide⟩

/-- Claim C1 (amended): when `pdq_hex_to_hash` rejects its input, the
output buffer is not always untouched; precisely, there is a first
invalid character pair, at some index `k < 32`: every byte before offset
`k` has been overwritten with the decoded value of its (valid) character
pair, and every byte from offset `k` on is unchanged.  The buffer is left
exactly as it was only when the invalid character occurs in the first
pair. -/
theorem hexToHash_error_write_behavior (s out : Nat → Nat)
    (herr : (pdq_hex_to_hash (some s) (some out)).1 = -1) :
    ∃ k, k < 32 ∧ ¬ pairValid s k ∧ (∀ m, m < k → pairValid s m) ∧
      ∃ res, (pdq_hex_to_hash (some s) (some out)).2 = some res ∧
        (∀ j, j < k → res j = hexPairByte s j) ∧
        (∀ j, k ≤ j → res j = out j) := by
  rw [pdq_hex_to_hash_some] at herr
  have hnall : ¬ ∀ k, k < 32 → pairValid s (0 + k) := by
    intro hall
    rw [← hexToHashLoop_fst_eq_zero s 32 0 out] at hall
    rw [herr] at hall
    exact absurd hall (by decide)
  have hex : ∃ k, k < 32 ∧ ¬ pairValid s k := by
    by_contra hc
    push_neg at hc
    exact hnall (fun k hk => by rw [Nat.zero_add]; exact hc k hk)
  have hexP : ∃ k, ¬ pairValid s k := ⟨hex.choose, hex.choose_spec.2⟩
  refine ⟨Nat.find hexP, ?_, Nat.find_spec hexP, ?_, ?_⟩
  · exact lt_of_le_of_lt (Nat.find_le hex.choose_spec.2) hex.choose_spec.1
  · intro m hm
    exact Decidable.of_not_not (Nat.find_min hexP hm)
  · obtain ⟨-, hsnd⟩ := hexToHashLoop_fail s 32 0 out (Nat.find hexP)
      (lt_of_le_of_lt (Nat.find_le hex.choose_spec.2) hex.choose_spec.1)
      (by rw [Nat.zero_add]; exact Nat.find_spec hexP)
      (fun m hm => by rw [Nat.zero_add]; exact Decidable.of_not_not (Nat.find_min hexP hm))
    refine ⟨(hexToHashLoop s 0 32 out).2, by rw [pdq_hex_to_hash_some], ?_, ?_⟩
    · intro j hj
      rw [hsnd j, if_pos (by omega)]
    · intro j hj
      rw [hsnd j, if_neg (by omega)]

/-- Claim C2 is refuted: a NUL-terminated string of 65 `'0'` characters
has length different from 64, yet `pdq_hex_to_hash` accepts it and
returns 0, because the code checks no length and reads exactly 64
characters. -/
theorem hexToHash_long_input_accepted_cex :
    isCStr s65Mem (List.replicate 65 48) ∧
    (List.replicate 65 48).length ≠ 64 ∧
    (pdq_hex_to_hash (some s65Mem) (some zeroMem)).1 = 0 := by
  exact ⟨by decide, by decide, by decide⟩

/-- Claim C2 (amended): over NUL-terminated C strings, `pdq_hex_to_hash`
returns 0 exactly when the string has at least 64 characters and its
first 64 characters are all hex digits — uppercase and lowercase both
accepted, as the third conjunct states — and returns `-1` otherwise.
Strings shorter than 64 characters are always rejected (the NUL
terminator is not a hex digit), but characters past the 64th are
ignored, so no upper length check is performed. -/
theorem hexToHash_success_iff (s out : Nat → Nat) (cs : List Nat) (hcs : isCStr s cs) :
    ((pdq_hex_to_hash (some s) (some out)).1 = 0 ↔
      64 ≤ cs.length ∧ ∀ i, i < 64 → isHexAscii (cs.getD i 0)) ∧
    ((pdq_hex_to_hash (some s) (some out)).1 = -1 ↔
      ¬(64 ≤ cs.length ∧ ∀ i, i < 64 → isHexAscii (cs.getD i 0))) ∧
    (∀ c, 0 ≤ hexCharVal c ↔ isHexAscii c) := by
  have hmain : (pdq_hex_to_hash (some s) (some out)).1 = 0 ↔
      64 ≤ cs.length ∧ ∀ i, i < 64 → isHexAscii (cs.getD i 0) := by
    rw [pdq_hex_to_hash_some, hexToHashLoop_fst_eq_zero]
    simp only [Nat.zero_add]
    rw [pairValid_all_iff, cstr_first64_iff s cs hcs]
  refine ⟨hmain, ?_, hexCharVal_nonneg_iff⟩
  rw [← hmain, pdq_hex_to_hash_some]
  rcases hexToHashLoop_fst_cases s 32 0 out with h | h
  · rw [h]
    constructor
    · intro h1
      exact absurd h1 (by decide)
    · intro h0
      exact absurd rfl h0
  · rw [h]
    constructor
    · intro _ h0
      exact absurd h0 (by decide)
    · intro _
      rfl

/-! Concrete instantiations of the theorems with hypotheses. -/

/-- `hexToHash_error_write_behavior` instantiated at the concrete
rejected input `"00z"` with an all-255 output buffer. -/
theorem hexToHash_error_write_behavior_witness :
    (pdq_hex_to_hash (some s00zMem) (some mem255)).1 = -1 ∧
    ∃ k, k < 32 ∧ ¬ pairValid s00zMem k ∧ (∀ m, m < k → pairValid s00zMem m) ∧
      ∃ res, (pdq_hex_to_hash (some s00zMem) (some mem255)).2 = some res ∧
        (∀ j, j < k → res j = hexPairByte s00zMem j) ∧
        (∀ j, k ≤ j → res j = mem255 j) :=
  ⟨by decide, hexToHash_error_write_behavior s00zMem mem255 (by decide)⟩

/-- `hexToHash_success_iff` instantiated at the concrete 64-character
string of `'0'` characters. -/
theorem hexToHash_success_iff_witness :
    isCStr s64Mem (List.replicate 64 48) ∧
    (((pdq_hex_to_hash (some s64Mem) (some zeroMem)).1 = 0 ↔
        64 ≤ (List.replicate 64 48).length ∧
          ∀ i, i < 64 → isHexAscii ((List.replicate 64 48).getD i 0)) ∧
     ((pdq_hex_to_hash (some s64Mem) (some zeroMem)).1 = -1 ↔
        ¬(64 ≤ (List.replicate 64 48).length ∧
          ∀ i, i < 64 → isHexAscii ((List.replicate 64 48).getD i 0))) ∧
     (∀ c, 0 ≤ hexCharVal c ↔ isHexAscii c)) :=
  ⟨by decide, hexToHash_success_iff s64Mem zeroMem (List.replicate 64 48) (by decide)⟩

/-- `hash_serialization_format` instantiated at the hash words and hash
bytes given by `idMem`. -/
theorem hash_serialization_format_witness :
    (∀ i, i < 16 → idMem i < 65536) ∧ (∀ i, i < 32 → idMem i < 256) ∧
    ((∀ i, i < 16 → writeHashBytes idMem zeroMem (i * 2) = idMem i / 256 ∧
        writeHashBytes idMem zeroMem (i * 2 + 1) = idMem i % 256) ∧
     ∃ mem, pdq_hash_to_hex (some idMem) (some zeroMem) = some mem ∧
       (∀ i, i < 32 → mem (i * 2) = hexDigitChar (idMem i / 16) ∧
         mem (i * 2 + 1) = hexDigitChar (idMem i % 16)) ∧
       (∀ j, j < 64 → isLowerHexDigitChar (mem j)) ∧
       mem 64 = 0) :=
  ⟨by decide, by decide,
    hash_serialization_format idMem zeroMem idMem zeroMem (by decide) (by decide)⟩

/-- `hexToHash_toHex_roundTrip` instantiated at the 32-byte hash given by
`idMem`. -/
theorem hexToHash_toHex_roundTrip_witness :
    (∀ i, i < 32 → idMem i < 256) ∧
    ∃ mem, pdq_hash_to_hex (some idMem) (some zeroMem) = some mem ∧
      (pdq_hex_to_hash (some mem) (some zeroMem)).1 = 0 ∧
      ∃ res, (pdq_hex_to_hash (some mem) (some zeroMem)).2 = some res ∧
        ∀ i, i < 32 → res i = idMem i :=
  ⟨by decide, hexToHash_toHex_roundTrip idMem zeroMem zeroMem (by decide)⟩

/-- `hash_error_leaves_outputs` instantiated at a failing call (null
input buffer): the output memories come back unchanged. -/
theorem hash_error_leaves_outputs_witness :
    (pdq_hash_from_rgb none 1 1 (some zeroMem) (some 0) none).2.1 = some zeroMem ∧
    (pdq_hash_from_rgb none 1 1 (some zeroMem) (some 0) none).2.2 = some 0 :=
  (hash_error_leaves_outputs none 1 1 (some zeroMem) (some 0) none).1 (by decide)

/-- `hexToHash_first64_determined` instantiated at the concrete
64-character string of `'0'` characters. -/
theorem hexToHash_first64_determined_witness :
    (∀ i, i < 64 → 0 ≤ hexCharVal (s64Mem i)) ∧
    ((pdq_hex_to_hash (some s64Mem) (some zeroMem)).1 = 0 ∧
     (∃ res, (pdq_hex_to_hash (some s64Mem) (some zeroMem)).2 = some res ∧
       (∀ i, i < 32 → res i = hexPairByte s64Mem i) ∧
       (∀ j, 32 ≤ j → res j = zeroMem j)) ∧
     ∀ s', (∀ i, i < 64 → s' i = s64Mem i) →
       pdq_hex_to_hash (some s') (some zeroMem) =
         pdq_hex_to_hash (some s64Mem) (some zeroMem)) :=
  ⟨by decide, hexToHash_first64_determined s64Mem zeroMem (by decide)⟩

end PdqWasm
